import Mathlib

/-!
Shallow embedding of `src/welch/welch.py` (Welch power/cross spectral density
estimation) and verification of the frozen claims about it.

Modelling conventions:
* numpy 1-D arrays become `List ℚ` (real dtype) or `List CQ` (complex dtype),
  where `CQ := ℚ × ℚ` is a complex number with exact rational parts; the 2-D
  periodogram stacks become `List (List CQ)`.
* The discrete-Fourier-transform primitives (`np.fft.fft`, `np.fft.rfft`) and
  the transcendental functions used by window generation (`np.pi`, `np.cos`)
  are external numeric collaborators of the file (the spec lists the DFT
  primitive and the window catalog as external dependencies); they are passed
  as an explicit `NumPrims` parameter so every definition stays executable.
* Python `ValueError` is modelled as `Err.invalidArgument`, a `TypeError` as
  `Err.typeError`, and an unbound-name failure as `Err.nameError`; fallible
  code returns `Except Err`.
* The module's only import line is `import numpy as np`, so the module-level
  name `warnings` is unbound; `warn` models the call `warnings.warn(...)`
  under Python name resolution for that import list.
* `_spectral_helper` is modelled at the call signature used by `csd`/`welch`:
  1-D input along `axis=-1`, `mode='psd'`, `boundary=None`, `padded=False`
  (`csd` passes exactly these); the boundary extenders are modelled separately
  in full since a claim is about them directly.
-/

namespace Welch

/-- Complex numbers with exact rational real and imaginary parts, modelling
numpy complex values. Componentwise `+` from the product instance is complex
addition. -/
abbrev CQ : Type := ℚ × ℚ

/-- Complex conjugate, `np.conjugate`. -/
def cconj (z : CQ) : CQ := (z.1, -z.2)

/-- Complex multiplication. -/
def cmul (a b : CQ) : CQ := (a.1 * b.1 - a.2 * b.2, a.1 * b.2 + a.2 * b.1)

/-- Multiplication of a complex value by a real scalar. -/
def csmul (q : ℚ) (z : CQ) : CQ := (q * z.1, q * z.2)

/-- Errors a call can raise: `invalidArgument` models Python `ValueError`,
`typeError` models `TypeError`, `nameError` models `NameError` (an unbound
module-level name). -/
inductive Err where
  | invalidArgument
  | typeError
  | nameError
deriving DecidableEq, Repr

/-- Module-level names bound by the import statements of `welch.py`
(line 2: `import numpy as np` is the file's only import). -/
def importedModules : List String := ["np"]

/-- Models the call `warnings.warn(...)`: under the module's imports the name
`warnings` is unbound, so the call raises `NameError` instead of warning. -/
def warn : Except Err Unit :=
  if importedModules.contains "warnings" then .ok () else .error .nameError

/-- External numeric primitives consumed, not implemented, by the module:
`np.pi`, `np.cos` (window generation) and the FFT routines
`np.fft.fft`/`np.fft.rfft` with explicit transform length `n` (`np.fft.rfft`
takes real input). -/
structure NumPrims where
  piQ : ℚ
  cosF : ℚ → ℚ
  fftF : ℕ → List CQ → List CQ
  rfftF : ℕ → List ℚ → List CQ

/-- `np.linspace(a, b, M)`: `M` evenly spaced points from `a` to `b`
inclusive. -/
def linspace (a b : ℚ) (M : ℕ) : List ℚ :=
  if M = 1 then [a]
  else (List.range M).map (fun (k : ℕ) => a + (k : ℚ) * (b - a) / ((M : ℚ) - 1))

/-- `_extend(M, sym)`: extend the window length by one sample when asked for a
periodic (DFT-even) window. -/
def extend_dfteven (M : ℕ) (sym : Bool) : ℕ × Bool :=
  if !sym then (M + 1, true) else (M, false)

/-- `_len_guards(M)`: with `M : ℕ` the integrality and sign guards always
pass; returns whether `M ≤ 1` (degenerate all-ones window). -/
def len_guards (M : ℕ) : Bool := M ≤ 1

/-- `_truncate(w, needed)`: drop the last sample when the window was
extended. -/
def truncate_w (w : List ℚ) (needed : Bool) : List ℚ :=
  if needed then w.dropLast else w

/-- `general_cosine(M, a, sym)`: sum of weighted cosine terms over
`np.linspace(-pi, pi, M)`. -/
def general_cosine (prims : NumPrims) (M : ℕ) (a : List ℚ) (sym : Bool) :
    List ℚ :=
  if len_guards M then List.replicate M 1
  else
    let Mt := extend_dfteven M sym
    let fac := linspace (-prims.piQ) prims.piQ Mt.1
    let w := fac.map (fun f =>
      ((List.range a.length).map (fun k => a.getD k 0 * prims.cosF (k * f))).sum)
    truncate_w w Mt.2

/-- `general_hamming(M, alpha, sym)`. -/
def general_hamming (prims : NumPrims) (M : ℕ) (alpha : ℚ) (sym : Bool) :
    List ℚ :=
  general_cosine prims M [alpha, 1 - alpha] sym

/-- `hann(M, sym)`. -/
def hann (prims : NumPrims) (M : ℕ) (sym : Bool) : List ℚ :=
  general_hamming prims M (1/2) sym

/-- Names in `_win_equiv` (all map to `hann`; `_win_equiv_raw` holds the one
alias group `('hanning', 'hann', 'han')`). -/
def win_equiv_names : List String := ["hanning", "hann", "han"]

/-- Names in `_needs_param` (empty: the lone entry's flag is `False`). -/
def needs_param_names : List String := []

/-- A window specification as passed to `get_window`: a numeric value (for
which Python `float(window)` succeeds), a bare name string, or a
`(name, params...)` tuple. -/
inductive WinSpec where
  | num : ℚ → WinSpec
  | str : String → WinSpec
  | tup : String → List ℚ → WinSpec
deriving DecidableEq, Repr

/-- `get_window(window, Nx, fftbins)`. A numeric `window` takes the
`float(window)` success branch: `winfunc = hann`, `params = (Nx, sym)`, the
numeric value is discarded. A string is checked against `_needs_param` and
looked up in `_win_equiv` (`KeyError` is re-raised as `ValueError`). A tuple
passes its tail as extra positional arguments to `hann`, which only accepts
`(M, sym)`, so a nonempty tail raises `TypeError`. -/
def get_window (prims : NumPrims) (window : WinSpec) (Nx : ℕ)
    (fftbins : Bool := true) : Except Err (List ℚ) :=
  let sym := !fftbins
  match window with
  | .num _ => .ok (hann prims Nx sym)
  | .str s =>
      if needs_param_names.contains s then .error .invalidArgument
      else if win_equiv_names.contains s then .ok (hann prims Nx sym)
      else .error .invalidArgument
  | .tup s args =>
      if win_equiv_names.contains s then
        if args = [] then .ok (hann prims Nx sym) else .error .typeError
      else .error .invalidArgument

/-- `even_ext(x, n)` on a 1-D signal: reflect `n` samples (excluding the
edge sample) at both ends; `n < 1` is the identity; errors when
`n > len(x) - 1`. With `n : ℕ`, `n < 1` means `n = 0`. -/
def even_ext (x : List ℚ) (n : ℕ) : Except Err (List ℚ) :=
  if n < 1 then .ok x
  else if x.length - 1 < n then .error .invalidArgument
  else
    let left_ext := ((x.take (n + 1)).drop 1).reverse
    let right_ext := ((x.drop (x.length - 1 - n)).take n).reverse
    .ok (left_ext ++ x ++ right_ext)

/-- `odd_ext(x, n)` on a 1-D signal: anti-symmetric reflection
`2*edge - reflected` at both ends; same guard structure as `even_ext`. -/
def odd_ext (x : List ℚ) (n : ℕ) : Except Err (List ℚ) :=
  if n < 1 then .ok x
  else if x.length - 1 < n then .error .invalidArgument
  else
    let left_end := x.headD 0
    let left_ext := ((x.take (n + 1)).drop 1).reverse
    let right_end := x.getLastD 0
    let right_ext := ((x.drop (x.length - 1 - n)).take n).reverse
    .ok (left_ext.map (fun v => 2 * left_end - v) ++ x ++
         right_ext.map (fun v => 2 * right_end - v))

/-- `const_ext(x, n)` on a 1-D signal: replicate the edge samples `n` times at
both ends. There is no length guard; on an empty signal the broadcast
`ones * left_end` of shapes `(n,)` and `(0,)` raises `ValueError`. -/
def const_ext (x : List ℚ) (n : ℕ) : Except Err (List ℚ) :=
  if n < 1 then .ok x
  else
    match x with
    | [] => .error .invalidArgument
    | _ => .ok (List.replicate n (x.headD 0) ++ x ++
                List.replicate n (x.getLastD 0))

/-- `zero_ext(x, n)` on a 1-D signal: pad `n` zeros at both ends. No length
guard. -/
def zero_ext (x : List ℚ) (n : ℕ) : Except Err (List ℚ) :=
  if n < 1 then .ok x
  else .ok (List.replicate n 0 ++ x ++ List.replicate n 0)

/-- `_median_bias(n)`: `ii_2 = 2 * np.arange(1., (n-1)//2 + 1)` is
`[2, 4, ..., 2*((n-1)//2)]` and the bias is
`1 + sum(1/(ii_2 + 1) - 1/ii_2)`. -/
def median_bias (n : ℕ) : ℚ :=
  1 + ((List.range ((n - 1) / 2)).map (fun (k : ℕ) =>
        1 / (2 * ((k : ℚ) + 1) + 1) - 1 / (2 * ((k : ℚ) + 1)))).sum

/-- Lexicographic order on complex values: numpy compares complex numbers by
real part, then imaginary part, when sorting/partitioning. -/
def cqLeB (a b : CQ) : Bool := a.1 < b.1 || (a.1 = b.1 && a.2 ≤ b.2)

/-- Ordered insertion for `sortLex`. -/
def insertLex (a : CQ) : List CQ → List CQ
  | [] => [a]
  | b :: t => if cqLeB a b then a :: b :: t else b :: insertLex a t

/-- Ascending lexicographic sort of complex values (insertion sort), used to
model the sorted order `np.median` selects from. -/
def sortLex : List CQ → List CQ
  | [] => []
  | a :: t => insertLex a (sortLex t)

/-- `np.median` along the last axis, on one 1-D slice: the middle element of
the sorted data for odd length, the average of the two middle elements for
even length. -/
def npMedian (l : List CQ) : CQ :=
  let s := sortLex l
  let n := l.length
  if n % 2 = 1 then s.getD (n / 2) (0, 0)
  else csmul (1/2) (s.getD (n / 2 - 1) (0, 0) + s.getD (n / 2) (0, 0))

/-- A periodogram stack `Pxy` with outer index the frequency bin and inner
index the segment, modelling the 2-D array `csd` averages over its last
axis. -/
abbrev Stack : Type := List (List CQ)

/-- `Pxy.shape[-1]`: the length of the last axis (the rows of a rectangular
stack all share it). -/
def shapeLast (P : Stack) : ℕ := (P.headD []).length

/-- `Pxy.size`: total number of elements. -/
def npSize (P : Stack) : ℕ := (P.map List.length).sum

/-- Result of the averaging block of `csd`: either the stack returned
unreduced (when `Pxy.size == 0`, shape preserved) or the estimate with the
segment axis reduced away. -/
inductive AvOut where
  | d2 : Stack → AvOut
  | d1 : List CQ → AvOut
deriving DecidableEq, Repr

/-- The averaging block of `csd` (lines 143-153). For a 2-D stack
`len(Pxy.shape) >= 2` always holds, so the outer guard is `Pxy.size > 0`.
With more than one segment, `median` divides the elementwise median by
`_median_bias(Pxy.shape[-1])`, `mean` averages, and any other string raises
`ValueError`; with at most one segment the stack is reshaped to drop the
segment axis with no reduction. -/
def csdAverage (average : String) (P : Stack) : Except Err AvOut :=
  if 0 < npSize P then
    if 1 < shapeLast P then
      if average = "median" then
        .ok (.d1 (P.map (fun r =>
          csmul (median_bias (shapeLast P))⁻¹ (npMedian r))))
      else if average = "mean" then
        .ok (.d1 (P.map (fun r => csmul ((shapeLast P : ℚ))⁻¹ r.sum)))
      else .error .invalidArgument
    else .ok (.d1 (P.map (fun r => r.headD (0, 0))))
  else .ok (.d2 P)

/-- The strided segmenter of `_fft_helper`: for `nperseg == 1` and
`noverlap == 0` a plain new-axis view (`x[..., np.newaxis]`), otherwise an
`as_strided` view of `(x.shape[-1] - noverlap) // step` segments of `nperseg`
samples each, starting `step = nperseg - noverlap` apart. -/
def fft_helper_segments (x : List CQ) (nperseg noverlap : ℕ) : Stack :=
  if nperseg = 1 ∧ noverlap = 0 then x.map (fun v => [v])
  else
    let step := nperseg - noverlap
    (List.range ((x.length - noverlap) / step)).map
      (fun k => (x.drop (k * step)).take nperseg)

/-- `_fft_helper(x, win, detrend_func, nperseg, noverlap, nfft, sides)`:
segment, detrend each segment (the detrend strategy `dtF` acts on the whole
segment stack along its last axis), multiply by the window, then transform —
the full complex FFT for two-sided output, or `result = result.real` followed
by the real-input FFT for one-sided output. -/
def fft_helper (prims : NumPrims) (x : List CQ) (win : List ℚ)
    (dtF : Stack → Stack) (nperseg noverlap nfft : ℕ) (sides : String) :
    Stack :=
  let segs := fft_helper_segments x nperseg noverlap
  let segs := dtF segs
  let segs := segs.map (fun s => List.zipWith csmul win s)
  if sides = "twosided" then segs.map (prims.fftF nfft)
  else segs.map (fun s => prims.rfftF nfft (s.map Prod.fst))

/-- The one-sided PSD Nyquist correction (lines 406-411): `result[..., 1:]`
is doubled when `nfft` is odd, `result[..., 1:-1]` when `nfft` is even, on
each 1-D frequency slice. -/
def nyquist_double (nfft : ℕ) (r : List CQ) : List CQ :=
  if nfft % 2 = 1 then
    r.take 1 ++ (r.drop 1).map (csmul 2)
  else
    r.take 1 ++ ((r.drop 1).take (r.length - 2)).map (csmul 2) ++
      r.drop (max (r.length - 1) 1)

/-- `np.fft.fftfreq(n, 1/fs)` scaled: bin `k` maps to `k*fs/n` for
`k ≤ (n-1)//2` and to `(k-n)*fs/n` beyond. -/
def fftfreq (n : ℕ) (fs : ℚ) : List ℚ :=
  (List.range n).map (fun k =>
    (if k ≤ (n - 1) / 2 then (k : ℚ) else (k : ℚ) - n) * fs / n)

/-- `np.fft.rfftfreq(n, 1/fs)`: the `n//2 + 1` non-negative bin
frequencies. -/
def rfftfreq (n : ℕ) (fs : ℚ) : List ℚ :=
  (List.range (n / 2 + 1)).map (fun (k : ℕ) => (k : ℚ) * fs / n)

/-- The window argument of `_spectral_helper`: a name string, a
`(name, params...)` tuple, an explicit 1-D coefficient array, or a bare
number (which `np.asarray` turns into a 0-d array, failing the 1-D check). -/
inductive WindowArg where
  | str : String → WindowArg
  | tup : String → List ℚ → WindowArg
  | arr : List ℚ → WindowArg
  | num : ℚ → WindowArg
deriving DecidableEq, Repr

/-- `_triage_segments(window, nperseg, input_length)`. For a string or tuple
window, `nperseg` defaults to 256; if it exceeds the input length the code
calls `warnings.warn` (which raises `NameError`, see `warn`) before clipping;
otherwise `get_window(window, nperseg)` runs. For an array window (1-D by
construction here) the window must not be longer than the input and must
agree with an explicitly supplied `nperseg`; a scalar window is a 0-d array
and fails the 1-D check. -/
def triage_segments (prims : NumPrims) (window : WindowArg)
    (npsO : Option ℕ) (input_length : ℕ) : Except Err (List ℚ × ℕ) :=
  let viaSpec : WinSpec → Except Err (List ℚ × ℕ) := fun ws => do
    let nperseg := npsO.getD 256
    if input_length < nperseg then
      do warn; let win ← get_window prims ws input_length; .ok (win, input_length)
    else
      do let win ← get_window prims ws nperseg; .ok (win, nperseg)
  match window with
  | .str s => viaSpec (.str s)
  | .tup s args => viaSpec (.tup s args)
  | .arr w =>
      if input_length < w.length then .error .invalidArgument
      else
        match npsO with
        | none => .ok (w, w.length)
        | some nperseg =>
            if nperseg ≠ w.length then .error .invalidArgument
            else .ok (w, nperseg)
  | .num _ => .error .invalidArgument

/-- Lines 314-319: `noverlap` defaults to `nperseg // 2` and must be less
than `nperseg`. -/
def resolve_noverlap (nperseg : ℕ) (novO : Option ℕ) : Except Err ℕ :=
  let noverlap := novO.getD (nperseg / 2)
  if nperseg ≤ noverlap then .error .invalidArgument else .ok noverlap

/-- Transpose of a rectangular stack (row length read from the first row,
entries fetched by index), modelling `np.rollaxis(result, -1, -2)` which
moves the frequency axis in front of the segment axis for 1-D input. -/
def transposeCQ (m : Stack) : Stack :=
  (List.range (m.headD []).length).map (fun j => m.map (fun row => row.getD j (0, 0)))

/-- Parameter resolution of `_spectral_helper` in source order (lines
299-392): the `nperseg < 1` guard, window triage, `nfft` and `noverlap`
resolution, scaling selection, and the one-sided/two-sided decision (which
calls `warnings.warn` on complex input). `ycO` is `np.iscomplexobj(y)` when a
distinct `y` is present. Returns
`(win, nperseg, nfft, noverlap, scale, sides)`. -/
def resolve_params (prims : NumPrims) (window : WindowArg)
    (npsO novO nfftO : Option ℕ) (N : ℕ) (fs : ℚ) (scaling : String)
    (return_onesided xc : Bool) (ycO : Option Bool) :
    Except Err (List ℚ × ℕ × ℕ × ℕ × ℚ × String) := do
  match npsO with
    | some n => if n < 1 then throw .invalidArgument else pure ()
    | none => pure ()
  let wn ← triage_segments prims window npsO N
  let win := wn.1
  let nperseg := wn.2
  let nfft ← match nfftO with
    | none => pure nperseg
    | some nf => if nf < nperseg then throw .invalidArgument else pure nf
  let noverlap ← resolve_noverlap nperseg novO
  let scale ←
    if scaling = "density" then pure (1 / (fs * (win.map (fun w => w * w)).sum))
    else if scaling = "spectrum" then pure (1 / win.sum ^ 2)
    else throw .invalidArgument
  let sides : String ←
    if return_onesided then
      if xc then do warn; pure "twosided"
      else
        match ycO with
        | some yc => if yc then do warn; pure "twosided" else pure "onesided"
        | none => pure "onesided"
    else pure "twosided"
  pure (win, nperseg, nfft, noverlap, scale, sides)

/-- The computation of `_spectral_helper` after validation (lines 389-432):
bin frequencies, windowed FFTs, (cross-)periodogram, scaling, one-sided PSD
Nyquist correction, the `same_data` real cast (`yD = none`), and the final
axis roll. -/
def psd_core (prims : NumPrims) (x : List CQ) (yD : Option (List CQ))
    (dtF : Stack → Stack) (fs : ℚ) (win : List ℚ)
    (nperseg noverlap nfft : ℕ) (scale : ℚ) (sides : String) :
    List ℚ × Stack :=
  let freqs := if sides = "twosided" then fftfreq nfft fs else rfftfreq nfft fs
  let result : Stack := fft_helper prims x win dtF nperseg noverlap nfft sides
  let result : Stack := match yD with
    | some y =>
        let result_y := fft_helper prims y win dtF nperseg noverlap nfft sides
        result.zipWith (fun rx ry =>
          rx.zipWith (fun a b => cmul (cconj a) b) ry) result_y
    | none => result.map (fun row => row.map (fun z => cmul (cconj z) z))
  let result := result.map (fun row => row.map (csmul scale))
  let result := if sides = "onesided" then result.map (nyquist_double nfft)
    else result
  let result := if yD.isNone then
      result.map (fun row => row.map (fun z => ((z.1, 0) : CQ)))
    else result
  (freqs, transposeCQ result)

/-- `_spectral_helper` at the `csd`/`welch` call signature: 1-D input along
`axis=-1`, `mode='psd'`, `boundary=None`, `padded=False`. The second input is
`none` when `y is x` (the `same_data` fast path `csd(x, x)` uses) and
otherwise carries the `y` data; `xc`/`yc` are the `np.iscomplexobj` dtype
flags of the inputs. Steps in source order: empty-size short-circuit,
cross-input length equalization by trailing zeros, parameter resolution
(`resolve_params`) and the spectral computation (`psd_core`). Returns
`(freqs, Pxy)`; the segment-time vector `csd` discards is not modelled. -/
def spectral_helper (prims : NumPrims) (x : List CQ) (xc : Bool)
    (yO : Option (List CQ × Bool)) (fs : ℚ) (window : WindowArg)
    (npsO novO nfftO : Option ℕ) (dtF : Stack → Stack)
    (return_onesided : Bool) (scaling : String) :
    Except Err (List ℚ × Stack) :=
  if x.length = 0 ∨ (∃ p ∈ yO, p.1.length = 0) then .ok ([], [])
  else
    let N := match yO with
      | none => x.length
      | some p => max x.length p.1.length
    let xe := x ++ List.replicate (N - x.length) ((0 : ℚ), (0 : ℚ))
    let yOe := yO.map (fun p =>
      (p.1 ++ List.replicate (N - p.1.length) ((0 : ℚ), (0 : ℚ)), p.2))
    match resolve_params prims window npsO novO nfftO N fs scaling
        return_onesided xc (yOe.map Prod.snd) with
    | .error e => .error e
    | .ok pr =>
        .ok (psd_core prims xe (yOe.map Prod.fst) dtF fs pr.1 pr.2.1
          pr.2.2.2.1 pr.2.2.1 pr.2.2.2.2.1 pr.2.2.2.2.2)

/-- `csd(x, y, ...)`: run the spectral engine in `psd` mode, then average the
periodogram stack over the segment axis with `csdAverage`. `yO = none` models
the same-object call `csd(x, x)`. -/
def csd (prims : NumPrims) (x : List CQ) (xc : Bool)
    (yO : Option (List CQ × Bool)) (fs : ℚ) (window : WindowArg)
    (npsO novO nfftO : Option ℕ) (dtF : Stack → Stack)
    (return_onesided : Bool) (scaling : String) (average : String) :
    Except Err (List ℚ × AvOut) := do
  let fp ← spectral_helper prims x xc yO fs window npsO novO nfftO dtF
    return_onesided scaling
  let out ← csdAverage average fp.2
  .ok (fp.1, out)

/-- `.real` applied to the averaged estimate, as `welch` does to `Pxy`. -/
def realAv (o : AvOut) : AvOut :=
  match o with
  | .d1 l => .d1 (l.map (fun z => ((z.1, 0) : CQ)))
  | .d2 m => .d2 (m.map (fun row => row.map (fun z => ((z.1, 0) : CQ))))

/-- `welch(x, ...)`: `csd(x, x, ...)` followed by taking the real part of the
averaged estimate. -/
def welch (prims : NumPrims) (x : List CQ) (xc : Bool) (fs : ℚ)
    (window : WindowArg) (npsO novO nfftO : Option ℕ) (dtF : Stack → Stack)
    (return_onesided : Bool) (scaling : String) (average : String) :
    Except Err (List ℚ × AvOut) := do
  let fp ← csd prims x xc none fs window npsO novO nfftO dtF
    return_onesided scaling average
  .ok (fp.1, realAv fp.2)

/-- Modelled from the spec (claim C3's words, for comparison with the source's
`median_bias`): `bias(n) = 1 + sum over odd i = 1, 3, 5, ... with i <= n-2 of
(1/(i+1) - 1/i)`. -/
def median_bias_claimed (n : ℕ) : ℚ :=
  1 + (((List.range (n - 1)).filter (fun i => i % 2 = 1)).map (fun (i : ℕ) =>
        1 / ((i : ℚ) + 1) - 1 / (i : ℚ))).sum

/-- The amended bias formula: sum over even `i = 2, 4, ...` with `i ≤ n - 1`
of `1/(i+1) - 1/i` (shown below to equal the source's `median_bias`). -/
def median_bias_even (n : ℕ) : ℚ :=
  1 + (((List.range n).filter (fun i => i % 2 = 0 && i ≠ 0)).map (fun (i : ℕ) =>
        1 / ((i : ℚ) + 1) - 1 / (i : ℚ))).sum

/-- Concrete instantiation of the external numeric primitives, used to
evaluate the model on closed inputs (any instantiation works for the
universally quantified theorems; witnesses fix this one). -/
def prims0 : NumPrims where
  piQ := 0
  cosF := fun _ => 1
  fftF := fun n _ => List.replicate n ((0 : ℚ), (0 : ℚ))
  rfftF := fun n l => List.replicate (n / 2 + 1) ((l.sum, (0 : ℚ)))

/-- Every element of the list has zero imaginary part. -/
def imZeroL (l : List CQ) : Prop := ∀ z ∈ l, z.2 = 0

/-- Every element of the stack has zero imaginary part. -/
def imZeroS (m : Stack) : Prop := ∀ r ∈ m, imZeroL r

/-! ### Helper lemmas -/

theorem linspace_length (a b : ℚ) (M : ℕ) : (linspace a b M).length = M := by
  unfold linspace
  split
  · simp [*]
  · rw [List.length_map, List.length_range]

theorem hann_length (prims : NumPrims) (M : ℕ) (sym : Bool) :
    (hann prims M sym).length = M := by
  unfold hann general_hamming general_cosine
  split
  · simp
  · unfold extend_dfteven truncate_w
    rename_i h
    cases sym with
    | true => simp [linspace_length]
    | false =>
        simp only [Bool.not_true, Bool.not_false, if_true, if_false]
        rw [List.length_dropLast]
        simp [linspace_length]

/-! ### C1: segment count and segment length -/

/-- C1: for every signal of length `N` with `0 ≤ noverlap < nperseg` (and
`noverlap ≤ N`, which always holds when the segmenter is reached, since
`nperseg` never exceeds the extended/padded length), the segmenter produces
exactly `⌊(N - noverlap) / (nperseg - noverlap)⌋` segments, each of length
`nperseg`; tail samples that do not fill a full segment are dropped. -/
theorem C1_segment_count (x : List CQ) (nperseg noverlap : ℕ)
    (hov : noverlap < nperseg) (hlen : noverlap ≤ x.length) :
    (fft_helper_segments x nperseg noverlap).length
      = (x.length - noverlap) / (nperseg - noverlap) ∧
    ∀ s ∈ fft_helper_segments x nperseg noverlap, s.length = nperseg := by
  by_cases hsp : nperseg = 1 ∧ noverlap = 0
  · obtain ⟨h1, h0⟩ := hsp
    subst h1; subst h0
    constructor
    · simp [fft_helper_segments]
    · intro s hs
      rw [fft_helper_segments, if_pos (⟨rfl, rfl⟩ : (1:ℕ) = 1 ∧ (0:ℕ) = 0),
        List.mem_map] at hs
      obtain ⟨v, _, rfl⟩ := hs
      rfl
  · constructor
    · simp [fft_helper_segments, hsp]
    · intro s hs
      simp only [fft_helper_segments, if_neg hsp, List.mem_map,
        List.mem_range] at hs
      obtain ⟨k, hk, rfl⟩ := hs
      have h1 : (k + 1) * (nperseg - noverlap) ≤
          ((x.length - noverlap) / (nperseg - noverlap)) * (nperseg - noverlap) :=
        Nat.mul_le_mul_right _ hk
      have h2 : ((x.length - noverlap) / (nperseg - noverlap)) *
          (nperseg - noverlap) ≤ x.length - noverlap :=
        Nat.div_mul_le_self _ _
      rw [Nat.succ_mul] at h1
      simp only [List.length_take, List.length_drop]
      omega

/-- Closed witness for C1: a 5-sample signal with `nperseg = 2`,
`noverlap = 1` yields 4 segments of length 2. -/
theorem C1_segment_count_witness :
    (1 < 2 ∧ 1 ≤ ([((1:ℚ),(0:ℚ)), (2,0), (3,0), (4,0), (5,0)] : List CQ).length) ∧
    ((fft_helper_segments [((1:ℚ),(0:ℚ)), (2,0), (3,0), (4,0), (5,0)] 2 1).length
        = (([((1:ℚ),(0:ℚ)), (2,0), (3,0), (4,0), (5,0)] : List CQ).length - 1) / (2 - 1) ∧
      ∀ s ∈ fft_helper_segments [((1:ℚ),(0:ℚ)), (2,0), (3,0), (4,0), (5,0)] 2 1,
        s.length = 2) :=
  ⟨⟨by decide, by decide⟩,
    C1_segment_count [((1:ℚ),(0:ℚ)), (2,0), (3,0), (4,0), (5,0)] 2 1
      (by decide) (by decide)⟩

theorem getD_map_of_lt (l : List CQ) (j : ℕ) (h : j < l.length) (f : CQ → CQ)
    (d : CQ) : (l.map f).getD j d = f (l.getD j d) := by
  induction l generalizing j with
  | nil => simp at h
  | cons a t ih =>
      cases j with
      | zero => rfl
      | succ j =>
          simp only [List.map_cons, List.getD_cons_succ]
          exact ih j (by simpa using h)

/-! ### C2: one-sided PSD Nyquist doubling factors -/

/-- C2: on a one-sided PSD result of `nfft/2 + 1` bins, the Nyquist
correction multiplies every bin by 2 except bin 0, and except the last
(Nyquist) bin as well when `nfft` is even; those excepted bins keep
factor 1. -/
theorem C2_nyquist_factor (nfft : ℕ) (r : List CQ) (i : ℕ)
    (hlen : r.length = nfft / 2 + 1) (hi : i < r.length) :
    (nyquist_double nfft r).getD i (0, 0) =
      if i = 0 ∨ (nfft % 2 = 0 ∧ i = nfft / 2) then r.getD i (0, 0)
      else csmul 2 (r.getD i (0, 0)) := by
  obtain ⟨a, t, rfl⟩ : ∃ a t, r = a :: t := by
    cases r with
    | nil => simp at hi
    | cons a t => exact ⟨a, t, rfl⟩
  unfold nyquist_double
  by_cases hp : nfft % 2 = 1
  · rw [if_pos hp]
    simp only [List.take_cons, List.take_zero, List.drop_succ_cons,
      List.drop_zero]
    cases i with
    | zero => simp
    | succ j =>
        have hj : j < t.length := by simpa using hi
        simp only [List.cons_append, List.nil_append, List.getD_cons_succ,
          if_neg (by omega : ¬(j + 1 = 0 ∨ (nfft % 2 = 0 ∧ j + 1 = nfft / 2)))]
        exact getD_map_of_lt t j hj (csmul 2) (0, 0)
  · rw [if_neg hp]
    have hp0 : nfft % 2 = 0 := by omega
    rcases List.eq_nil_or_concat t with rfl | ⟨m, b, rfl⟩
    · have h0 : nfft / 2 = 0 := by simp at hlen; omega
      have hi0 : i = 0 := by simp at hi; omega
      subst hi0
      simp [h0, hp0]
    · simp only [List.concat_eq_append] at hlen hi ⊢
      have hnff : nfft / 2 = m.length + 1 := by
        simp only [List.length_cons, List.length_append, List.length_nil] at hlen
        omega
      have hlen2 : (a :: (m ++ [b])).length = m.length + 2 := by simp
      have e1 : (a :: (m ++ [b])).take 1 = [a] := rfl
      have e2 : ((a :: (m ++ [b])).drop 1).take ((a :: (m ++ [b])).length - 2)
          = m := by
        simp only [List.drop_succ_cons, List.drop_zero, hlen2]
        simpa using List.take_left m [b]
      have e3 : (a :: (m ++ [b])).drop (max ((a :: (m ++ [b])).length - 1) 1)
          = [b] := by
        rw [hlen2]
        have hm : max (m.length + 2 - 1) 1 = m.length + 1 := by omega
        rw [hm]
        simpa using List.drop_left m [b]
      rw [e1, e2, e3]
      cases i with
      | zero => simp
      | succ j =>
          simp only [List.cons_append, List.nil_append, List.getD_cons_succ]
          have hji : j < m.length + 1 := by
            simp only [List.length_cons, List.length_append, List.length_nil] at hi
            omega
          by_cases hjm : j < m.length
          · rw [List.getD_append _ _ _ _ (by simpa using hjm),
              List.getD_append _ _ _ _ hjm,
              getD_map_of_lt m j hjm (csmul 2) (0, 0),
              if_neg (by omega : ¬(j + 1 = 0 ∨ (nfft % 2 = 0 ∧ j + 1 = nfft / 2)))]
          · have hjm2 : j = m.length := by omega
            subst hjm2
            rw [List.getD_append_right _ _ _ _ (by simp),
              List.getD_append_right _ _ _ _ (le_refl _),
              if_pos (Or.inr ⟨hp0, by omega⟩)]
            simp

/-- Closed witness for C2: with `nfft = 4`, a 3-bin slice `[1, 1, 1]` has its
interior bin 1 doubled. -/
theorem C2_nyquist_factor_witness :
    (([((1:ℚ),(0:ℚ)), (1,0), (1,0)] : List CQ).length = 4 / 2 + 1 ∧
      1 < ([((1:ℚ),(0:ℚ)), (1,0), (1,0)] : List CQ).length) ∧
    (nyquist_double 4 [((1:ℚ),(0:ℚ)), (1,0), (1,0)]).getD 1 (0, 0) =
      (if 1 = 0 ∨ (4 % 2 = 0 ∧ 1 = 4 / 2) then
        ([((1:ℚ),(0:ℚ)), (1,0), (1,0)] : List CQ).getD 1 (0, 0)
      else csmul 2 (([((1:ℚ),(0:ℚ)), (1,0), (1,0)] : List CQ).getD 1 (0, 0))) :=
  ⟨⟨by decide, by decide⟩,
    C2_nyquist_factor 4 [((1:ℚ),(0:ℚ)), (1,0), (1,0)] 1 (by decide) (by decide)⟩

/-! ### C10: a numeric window argument is discarded -/

/-- C10: any numeric window argument takes the `float(window)` branch of
`get_window`, which ignores the value and builds the Hann window of length
`Nx`; two numeric specs therefore give identical windows. -/
theorem C10_numeric_window (prims : NumPrims) (b1 b2 : ℚ) (Nx : ℕ)
    (fftbins : Bool) :
    get_window prims (.num b1) Nx fftbins = get_window prims (.num b2) Nx fftbins ∧
    get_window prims (.num b1) Nx fftbins = .ok (hann prims Nx (!fftbins)) ∧
    (hann prims Nx (!fftbins)).length = Nx :=
  ⟨rfl, rfl, hann_length prims Nx (!fftbins)⟩

/-! ### C8: single-segment stacks skip the reduction -/

/-- Branch lemma: a stack whose last axis has length at most 1 (and positive
size) takes the reshape branch for every method string. -/
theorem csdAverage_reshape (average : String) (P : Stack)
    (hsz : 0 < npSize P) (hsl : shapeLast P ≤ 1) :
    csdAverage average P = .ok (.d1 (P.map (fun r => r.headD (0, 0)))) := by
  unfold csdAverage
  rw [if_pos hsz, if_neg (by omega)]

/-- Branch lemma: with more than one segment, `median` divides the
elementwise median by `_median_bias(shape[-1])`. -/
theorem csdAverage_median_branch (P : Stack)
    (hsz : 0 < npSize P) (hsl : 1 < shapeLast P) :
    csdAverage "median" P = .ok (.d1 (P.map (fun r =>
      csmul (median_bias (shapeLast P))⁻¹ (npMedian r)))) := by
  unfold csdAverage
  rw [if_pos hsz, if_pos hsl, if_pos rfl]

/-- Branch lemma: with more than one segment, an unknown method string
raises `ValueError`. -/
theorem csdAverage_unknown_branch (average : String) (P : Stack)
    (hmed : average ≠ "median") (hmean : average ≠ "mean")
    (hsz : 0 < npSize P) (hsl : 1 < shapeLast P) :
    csdAverage average P = .error .invalidArgument := by
  unfold csdAverage
  rw [if_pos hsz, if_pos hsl, if_neg hmed, if_neg hmean]

/-- Branch lemma: a stack of size zero is passed through unreduced, for
every method string. -/
theorem csdAverage_empty (average : String) (P : Stack)
    (hsz : npSize P = 0) : csdAverage average P = .ok (.d2 P) := by
  unfold csdAverage
  rw [if_neg (by omega)]

/-- First element of a nonempty stack determines `shapeLast`, and its length
bounds `npSize` below. -/
theorem stack_cons_facts (p : List CQ) (ps : Stack) :
    shapeLast (p :: ps) = p.length ∧ p.length ≤ npSize (p :: ps) := by
  refine ⟨rfl, ?_⟩
  simp only [npSize, List.map_cons, List.sum_cons]
  omega

/-- C8: on a stack with exactly one segment per frequency bin, both `mean`
and `median` averaging take the reshape branch: the single periodogram is
returned with the segment axis dropped and no bias division, so the two
methods agree. -/
theorem C8_single_segment (P : Stack) (hne : P ≠ [])
    (hrect : ∀ r ∈ P, r.length = 1) :
    csdAverage "median" P = .ok (.d1 (P.map (fun r => r.headD (0, 0)))) ∧
    csdAverage "mean" P = .ok (.d1 (P.map (fun r => r.headD (0, 0)))) ∧
    csdAverage "median" P = csdAverage "mean" P := by
  obtain ⟨p, ps, rfl⟩ : ∃ p ps, P = p :: ps := by
    cases P with
    | nil => exact absurd rfl hne
    | cons p ps => exact ⟨p, ps, rfl⟩
  have h1 : p.length = 1 := hrect p (by simp)
  obtain ⟨hsl, hbound⟩ := stack_cons_facts p ps
  have hsz : 0 < npSize (p :: ps) := by omega
  have e1 := csdAverage_reshape "median" (p :: ps) hsz (by omega)
  have e2 := csdAverage_reshape "mean" (p :: ps) hsz (by omega)
  exact ⟨e1, e2, e1.trans e2.symm⟩

/-- Closed witness for C8: a two-bin stack with one segment each. -/
theorem C8_single_segment_witness :
    csdAverage "median" [[((3:ℚ),(4:ℚ))], [((5:ℚ),(6:ℚ))]]
        = .ok (.d1 [((3:ℚ),(4:ℚ)), ((5:ℚ),(6:ℚ))]) ∧
    csdAverage "mean" [[((3:ℚ),(4:ℚ))], [((5:ℚ),(6:ℚ))]]
        = .ok (.d1 [((3:ℚ),(4:ℚ)), ((5:ℚ),(6:ℚ))]) :=
  ⟨(C8_single_segment [[((3:ℚ),(4:ℚ))], [((5:ℚ),(6:ℚ))]] (by decide)
      (by decide)).1,
    (C8_single_segment [[((3:ℚ),(4:ℚ))], [((5:ℚ),(6:ℚ))]] (by decide)
      (by decide)).2.1⟩

/-! ### C3: the median bias-correction factor -/

theorem filter_even_range (n : ℕ) :
    (List.range n).filter (fun i => i % 2 = 0 && i ≠ 0)
      = (List.range ((n - 1) / 2)).map (fun k => 2 * (k + 1)) := by
  induction n with
  | zero => rfl
  | succ n ih =>
      rw [List.range_succ, List.filter_append, ih, List.filter_singleton]
      by_cases h : n % 2 = 0 ∧ n ≠ 0
      · have hc : (decide (n % 2 = 0) && decide (n ≠ 0)) = true := by
          simp [h.1, h.2]
        rw [hc, cond_true, show (n + 1 - 1) / 2 = (n - 1) / 2 + 1 by omega,
          List.range_succ, List.map_append]
        simp only [List.map_cons, List.map_nil]
        congr 2
        omega
      · have hc : (decide (n % 2 = 0) && decide (n ≠ 0)) = false := by
          by_cases h2 : n % 2 = 0
          · have h0 : n = 0 := by tauto
            subst h0
            rfl
          · simp [h2]
        rw [hc, cond_false, List.append_nil,
          show (n + 1 - 1) / 2 = (n - 1) / 2 by omega]

theorem median_bias_even_eq (n : ℕ) : median_bias_even n = median_bias n := by
  unfold median_bias_even median_bias
  rw [filter_even_range, List.map_map]
  have hfun : ((fun (i : ℕ) => 1 / ((i : ℚ) + 1) - 1 / (i : ℚ)) ∘ fun k => 2 * (k + 1))
      = fun (k : ℕ) => 1 / (2 * ((k : ℚ) + 1) + 1) - 1 / (2 * ((k : ℚ) + 1)) := by
    funext k
    simp only [Function.comp_apply]
    push_cast
    ring
  rw [hfun]

/-- C3 counterexample: with `n = 3` segments of a one-bin stack
`[1, 2, 4]`, the code divides the median 2 by `_median_bias 3 = 5/6`
yielding `12/5`, while the claimed formula (odd `i ≤ n-2`) gives
`bias = 1/2` and hence would yield `4`. -/
theorem C3_counterexample :
    csdAverage "median" [[((1:ℚ),(0:ℚ)), ((2:ℚ),(0:ℚ)), ((4:ℚ),(0:ℚ))]]
        = .ok (.d1 [(((12:ℚ)/5, (0:ℚ)) : CQ)]) ∧
    csmul (median_bias_claimed 3)⁻¹
        (npMedian [((1:ℚ),(0:ℚ)), ((2:ℚ),(0:ℚ)), ((4:ℚ),(0:ℚ))])
      = (((4:ℚ), (0:ℚ)) : CQ) ∧
    ¬ csdAverage "median" [[((1:ℚ),(0:ℚ)), ((2:ℚ),(0:ℚ)), ((4:ℚ),(0:ℚ))]]
        = .ok (.d1 [csmul (median_bias_claimed 3)⁻¹
            (npMedian [((1:ℚ),(0:ℚ)), ((2:ℚ),(0:ℚ)), ((4:ℚ),(0:ℚ))])]) := by
  refine ⟨?_, ?_, ?_⟩ <;>
    norm_num [csdAverage, npSize, shapeLast, median_bias, median_bias_claimed,
      npMedian, sortLex, insertLex, cqLeB, csmul, List.filter,
      List.range_succ, List.range_zero]

/-- C3 amended: for every segment count `n ≥ 1`, median averaging returns the
elementwise median divided by
`bias(n) = 1 + sum over even i = 2, 4, ... with i ≤ n-1 of (1/(i+1) - 1/i)`
(for `n = 1` the reduction is skipped, which agrees since `bias(1) = 1` and
the median of a single value is that value). -/
theorem C3_median_amended (P : Stack) (n : ℕ) (hn : 1 ≤ n) (hne : P ≠ [])
    (hrect : ∀ r ∈ P, r.length = n) :
    csdAverage "median" P =
      .ok (.d1 (P.map (fun r => csmul (median_bias_even n)⁻¹ (npMedian r)))) := by
  obtain ⟨p, ps, rfl⟩ : ∃ p ps, P = p :: ps := by
    cases P with
    | nil => exact absurd rfl hne
    | cons p ps => exact ⟨p, ps, rfl⟩
  have h1 : p.length = n := hrect p (by simp)
  obtain ⟨hsl, hbound⟩ := stack_cons_facts p ps
  rw [h1] at hsl hbound
  have hsz : 0 < npSize (p :: ps) := by omega
  by_cases h2 : 1 < n
  · rw [csdAverage_median_branch (p :: ps) hsz (by omega), hsl,
      median_bias_even_eq]
  · have hn1 : n = 1 := by omega
    subst hn1
    rw [csdAverage_reshape "median" (p :: ps) hsz (by omega)]
    have hmap : List.map (fun r => r.headD (((0:ℚ),(0:ℚ)) : CQ)) (p :: ps)
        = List.map (fun r => csmul (median_bias_even 1)⁻¹ (npMedian r))
            (p :: ps) := by
      refine List.map_congr_left (fun r hr => ?_)
      obtain ⟨z, rfl⟩ : ∃ z, r = [z] := by
        have hlr := hrect r hr
        cases r with
        | nil => simp at hlr
        | cons z t =>
            cases t with
            | nil => exact ⟨z, rfl⟩
            | cons w u => simp at hlr
      have hb : median_bias_even 1 = 1 := by
        simp [median_bias_even, List.range_succ, List.range_zero]
      simp [hb, npMedian, sortLex, insertLex, csmul]
    rw [hmap]

/-- Closed witness for C3's amended theorem, at the counterexample's input. -/
theorem C3_median_amended_witness :
    csdAverage "median" [[((1:ℚ),(0:ℚ)), ((2:ℚ),(0:ℚ)), ((4:ℚ),(0:ℚ))]]
      = .ok (.d1 [csmul (median_bias_even 3)⁻¹
          (npMedian [((1:ℚ),(0:ℚ)), ((2:ℚ),(0:ℚ)), ((4:ℚ),(0:ℚ))])]) :=
  C3_median_amended [[((1:ℚ),(0:ℚ)), ((2:ℚ),(0:ℚ)), ((4:ℚ),(0:ℚ))]] 3
    (by omega) (by simp) (by simp)

/-! ### C9: boundary-extender guards -/

/-- C9 counterexample: `const_ext` and `zero_ext` accept an extension length
`n = 5` that exceeds `len([1,2]) - 1 = 1` and return extended signals, where
the claim requires an `InvalidArgument` failure for every mode. -/
theorem C9_counterexample :
    const_ext [(1:ℚ), 2] 5
        = .ok [1, 1, 1, 1, 1, 1, 2, 2, 2, 2, 2, 2] ∧
    zero_ext [(1:ℚ), 2] 5
        = .ok [0, 0, 0, 0, 0, 1, 2, 0, 0, 0, 0, 0] := by
  exact ⟨rfl, rfl⟩

/-- C9 amended: `even` and `odd` modes fail with `InvalidArgument` whenever
`n` exceeds `len(x) - 1`; `constant` and `zeros` perform no such check and
succeed for every `n ≥ 1` (`constant` requires a nonempty signal); all four
modes return the signal unchanged whenever `n < 1`. -/
theorem C9_boundary_amended :
    (∀ (x : List ℚ) (n : ℕ), n < 1 →
      even_ext x n = .ok x ∧ odd_ext x n = .ok x ∧
      const_ext x n = .ok x ∧ zero_ext x n = .ok x) ∧
    (∀ (x : List ℚ) (n : ℕ), 1 ≤ n → x.length - 1 < n →
      even_ext x n = .error .invalidArgument ∧
      odd_ext x n = .error .invalidArgument) ∧
    (∀ (x : List ℚ) (n : ℕ), 1 ≤ n → x ≠ [] →
      (∃ y, const_ext x n = .ok y) ∧ (∃ y, zero_ext x n = .ok y)) := by
  refine ⟨fun x n hn => ?_, fun x n hn hlen => ?_, fun x n hn hne => ?_⟩
  · unfold even_ext odd_ext const_ext zero_ext
    rw [if_pos hn, if_pos hn, if_pos hn, if_pos hn]
    exact ⟨rfl, rfl, rfl, rfl⟩
  · have h1 : ¬ n < 1 := by omega
    unfold even_ext odd_ext
    rw [if_neg h1, if_neg h1, if_pos hlen, if_pos hlen]
    exact ⟨rfl, rfl⟩
  · have h1 : ¬ n < 1 := by omega
    constructor
    · unfold const_ext
      rw [if_neg h1]
      cases x with
      | nil => exact absurd rfl hne
      | cons a t => exact ⟨_, rfl⟩
    · unfold zero_ext
      rw [if_neg h1]
      exact ⟨_, rfl⟩

/-- Closed witness for C9's amended theorem at concrete inputs. -/
theorem C9_boundary_amended_witness :
    even_ext [(1:ℚ), 2] 0 = .ok [(1:ℚ), 2] ∧
    even_ext [(1:ℚ), 2] 5 = .error .invalidArgument ∧
    odd_ext [(1:ℚ), 2] 5 = .error .invalidArgument ∧
    (∃ y, const_ext [(1:ℚ), 2] 5 = .ok y) :=
  ⟨(C9_boundary_amended.1 [(1:ℚ), 2] 0 (by decide)).1,
    (C9_boundary_amended.2.1 [(1:ℚ), 2] 5 (by decide) (by decide)).1,
    (C9_boundary_amended.2.1 [(1:ℚ), 2] 5 (by decide) (by decide)).2,
    (C9_boundary_amended.2.2 [(1:ℚ), 2] 5 (by decide) (by decide)).1⟩

/-! ### C7: unknown averaging method -/

/-- C7 counterexample: a call whose periodogram stack has a single segment
(4 samples, `nperseg = 4`) accepts the unsupported method string `"foo"` and
returns a result, where the claim requires an immediate `InvalidArgument`
failure for every method other than `"mean"`/`"median"`. -/
theorem C7_counterexample :
    csd prims0 [((1:ℚ),(0:ℚ)), (2,0), (3,0), (4,0)] false none 1
      (.arr [1,1,1,1]) none none none id true "density" "foo"
    = .ok ([0, 1/4, 1/2], .d1 [(25,0), (50,0), (25,0)]) := by
  simp +decide [csd, spectral_helper, resolve_params, psd_core,
    triage_segments, get_window, resolve_noverlap, fft_helper,
    fft_helper_segments, nyquist_double, transposeCQ, csdAverage, npSize,
    shapeLast, rfftfreq, prims0, csmul, cmul, cconj, warn, importedModules,
    List.range_succ, List.range_zero, List.zipWith, Except.bind, Bind.bind,
    Except.pure, Pure.pure]
  norm_num

/-- C7 amended: an averaging method other than `"mean"`/`"median"` raises
`InvalidArgument` exactly when the averaging block is reached with a nonempty
stack of more than one segment; with at most one segment (or an empty stack,
as an empty input produces) the method string is never examined and the call
returns a result. -/
theorem C7_unknown_average_amended :
    (∀ (average : String) (P : Stack), average ≠ "median" → average ≠ "mean" →
      1 < shapeLast P → 0 < npSize P →
      csdAverage average P = .error .invalidArgument) ∧
    (∀ (average : String) (P : Stack), shapeLast P ≤ 1 ∨ npSize P = 0 →
      ∃ o, csdAverage average P = .ok o) := by
  refine ⟨fun average P hmed hmean hsl hsz =>
    csdAverage_unknown_branch average P hmed hmean hsz hsl,
    fun average P h => ?_⟩
  by_cases hsz : 0 < npSize P
  · rcases h with hsl | h0
    · exact ⟨_, csdAverage_reshape average P hsz hsl⟩
    · omega
  · exact ⟨_, csdAverage_empty average P (by omega)⟩

/-- Closed witness for C7's amended theorem. -/
theorem C7_unknown_average_amended_witness :
    csdAverage "foo" [[((1:ℚ),(0:ℚ)), ((2:ℚ),(0:ℚ))]] = .error .invalidArgument ∧
    ∃ o, csdAverage "foo" [[((5:ℚ),(0:ℚ))]] = .ok o :=
  ⟨C7_unknown_average_amended.1 "foo" [[((1:ℚ),(0:ℚ)), ((2:ℚ),(0:ℚ))]]
      (by decide) (by decide) (by decide) (by decide),
    C7_unknown_average_amended.2 "foo" [[((5:ℚ),(0:ℚ))]] (Or.inl (by decide))⟩

/-! ### C6: the noverlap default and guard -/

/-- C6 counterexample: an empty input takes the size-zero short-circuit
before the parameter checks, so a call with `nperseg = 8`, `noverlap = 8`
returns empty arrays instead of failing; the claim requires every such call
to fail with `InvalidArgument`. -/
theorem C6_counterexample :
    csd prims0 ([] : List CQ) false none 1 (.arr [1]) (some 8) (some 8) none id
      true "density" "mean" = .ok ([], .d2 []) := by
  simp +decide [csd, spectral_helper, resolve_params, psd_core, csdAverage,
    npSize, Except.bind, Bind.bind, Except.pure, Pure.pure]

/-- C6 amended: `noverlap` defaults to `nperseg // 2`; every call with a
nonempty input that reaches the overlap check (here: an explicit window array
no longer than the input) and `noverlap ≥ nperseg` fails with
`InvalidArgument` before any segmentation or FFT (the error is raised by the
parameter-resolution chain, so no spectral value is computed). -/
theorem C6_noverlap_amended :
    (∀ nperseg : ℕ, 1 ≤ nperseg →
      resolve_noverlap nperseg none = .ok (nperseg / 2)) ∧
    (∀ nperseg noverlap : ℕ, nperseg ≤ noverlap →
      resolve_noverlap nperseg (some noverlap) = .error .invalidArgument) ∧
    (∀ (prims : NumPrims) (x : List CQ) (xc : Bool) (fs : ℚ) (w : List ℚ)
      (noverlap : ℕ) (dtF : Stack → Stack) (ros : Bool)
      (scaling average : String),
      x ≠ [] → w ≠ [] → w.length ≤ x.length → w.length ≤ noverlap →
      csd prims x xc none fs (.arr w) (some w.length) (some noverlap) none dtF
        ros scaling average = .error .invalidArgument) := by
  refine ⟨fun nperseg h1 => ?_, fun nperseg noverlap hge => ?_,
    fun prims x xc fs w noverlap dtF ros scaling average hx hw hwx hnov => ?_⟩
  · unfold resolve_noverlap
    rw [Option.getD_none, if_neg (by omega)]
  · unfold resolve_noverlap
    rw [Option.getD_some, if_pos hge]
  · have hx0 : ¬ x.length = 0 := by
      simpa [List.length_eq_zero] using hx
    have hw1 : ¬ w.length < 1 := by
      have := List.length_pos.mpr hw
      omega
    have hwx2 : ¬ x.length < w.length := by omega
    simp [csd, spectral_helper, resolve_params, hx0, hw1, hwx2,
      triage_segments, resolve_noverlap, hnov, Except.bind, Bind.bind,
      Except.pure, Pure.pure]

/-- Closed witness for C6's amended theorem: `nperseg = 8` defaults
`noverlap` to 4; `noverlap = 8` with `nperseg = 8` fails, also through the
full `csd` call on 16 samples. -/
theorem C6_noverlap_amended_witness :
    resolve_noverlap 8 none = .ok 4 ∧
    resolve_noverlap 8 (some 8) = .error .invalidArgument ∧
    csd prims0 (List.replicate 16 ((1:ℚ),(0:ℚ))) false none 1
      (.arr (List.replicate 8 1)) (some (List.replicate 8 (1:ℚ)).length)
      (some 8) none id true "density" "mean" = .error .invalidArgument :=
  ⟨C6_noverlap_amended.1 8 (by decide),
    C6_noverlap_amended.2.1 8 8 (by decide),
    C6_noverlap_amended.2.2 prims0 (List.replicate 16 ((1:ℚ),(0:ℚ))) false 1
      (List.replicate 8 1) 8 id true "density" "mean" (by decide) (by decide)
      (by decide) (by decide)⟩

/-! ### C5: complex input with a one-sided request -/

/-- C5: the one-sided/two-sided fallback for complex input calls
`warnings.warn`, but the module never imports `warnings`, so the call raises
`NameError` instead of warning and completing: shown both for a complex `x`
(same-data path) and a complex `y` (cross path). The claim that the call
completes with a two-sided result is the documented scipy behaviour the code
intends (it reaches for `warnings.warn`), so the code, not the claim, is at
fault. -/
theorem C5_complex_onesided_raises (prims : NumPrims) (dtF : Stack → Stack)
    (fs : ℚ) :
    spectral_helper prims [((0:ℚ),(1:ℚ))] true none fs (.arr [1]) none none
      none dtF true "density" = .error .nameError ∧
    spectral_helper prims [((1:ℚ),(0:ℚ))] false (some ([((0:ℚ),(1:ℚ))], true))
      fs (.arr [1]) none none none dtF true "density" = .error .nameError := by
  constructor <;>
    simp +decide [spectral_helper, resolve_params, triage_segments,
      resolve_noverlap, warn, importedModules, Except.bind, Bind.bind,
      Except.pure, Pure.pure]

/-! ### C4: `welch(x)` equals `csd(x, x)` -/

theorem real_id_pt (z : CQ) (h : z.2 = 0) : ((z.1, 0) : CQ) = z :=
  Prod.ext rfl h.symm

theorem csmul_im (q : ℚ) (w : CQ) (h : w.2 = 0) : (csmul q w).2 = 0 := by
  simp [csmul, h]

theorem imZeroL_getD (l : List CQ) (h : imZeroL l) (j : ℕ) :
    (l.getD j ((0:ℚ),(0:ℚ))).2 = 0 := by
  rcases hj : l[j]? with _ | z
  · rw [List.getD_eq_getElem?_getD, hj]
    rfl
  · rw [List.getD_eq_getElem?_getD, hj]
    exact h z (List.getElem?_mem hj)

theorem mem_insertLex (a z : CQ) (l : List CQ) (h : z ∈ insertLex a l) :
    z = a ∨ z ∈ l := by
  induction l with
  | nil => simpa [insertLex] using h
  | cons b t ih =>
      unfold insertLex at h
      by_cases hc : cqLeB a b
      · rw [if_pos hc] at h
        rcases List.mem_cons.mp h with h1 | h2
        · exact Or.inl h1
        · exact Or.inr h2
      · rw [if_neg hc] at h
        rcases List.mem_cons.mp h with h1 | h2
        · exact Or.inr (List.mem_cons.mpr (Or.inl h1))
        · rcases ih h2 with h3 | h4
          · exact Or.inl h3
          · exact Or.inr (List.mem_cons.mpr (Or.inr h4))

theorem mem_sortLex (z : CQ) (l : List CQ) (h : z ∈ sortLex l) : z ∈ l := by
  induction l with
  | nil => simpa [sortLex] using h
  | cons a t ih =>
      unfold sortLex at h
      rcases mem_insertLex a z (sortLex t) h with h1 | h2
      · exact List.mem_cons.mpr (Or.inl h1)
      · exact List.mem_cons.mpr (Or.inr (ih h2))

theorem npMedian_im (l : List CQ) (h : imZeroL l) : (npMedian l).2 = 0 := by
  have hs : imZeroL (sortLex l) := fun z hz => h z (mem_sortLex z l hz)
  unfold npMedian
  by_cases hp : l.length % 2 = 1
  · rw [if_pos hp]
    exact imZeroL_getD _ hs _
  · rw [if_neg hp]
    have h1 := imZeroL_getD _ hs (l.length / 2 - 1)
    have h2 := imZeroL_getD _ hs (l.length / 2)
    show (csmul (1/2) (_ + _)).2 = 0
    simp only [csmul, Prod.snd_add, h1, h2]
    norm_num

theorem sum_im (l : List CQ) (h : imZeroL l) : l.sum.2 = 0 := by
  induction l with
  | nil => rfl
  | cons a t ih =>
      rw [List.sum_cons]
      have ha : (a + t.sum).2 = a.2 + t.sum.2 := rfl
      rw [ha, h a (List.mem_cons.mpr (Or.inl rfl)),
        ih (fun z hz => h z (List.mem_cons.mpr (Or.inr hz)))]
      norm_num

theorem map_real_id (l : List CQ) (h : imZeroL l) :
    l.map (fun z => ((z.1, 0) : CQ)) = l := by
  induction l with
  | nil => rfl
  | cons a t ih =>
      rw [List.map_cons, ih (fun z hz => h z (List.mem_cons.mpr (Or.inr hz)))]
      rw [real_id_pt a (h a (List.mem_cons.mpr (Or.inl rfl)))]

theorem imZeroS_realify (m : Stack) :
    imZeroS (m.map (fun row => row.map (fun z => ((z.1, 0) : CQ)))) := by
  intro r hr
  rw [List.mem_map] at hr
  obtain ⟨row, _, rfl⟩ := hr
  intro z hz
  rw [List.mem_map] at hz
  obtain ⟨w, _, rfl⟩ := hz
  rfl

theorem imZeroS_transpose (m : Stack) (h : imZeroS m) :
    imZeroS (transposeCQ m) := by
  intro r hr
  unfold transposeCQ at hr
  rw [List.mem_map] at hr
  obtain ⟨j, _, rfl⟩ := hr
  intro z hz
  rw [List.mem_map] at hz
  obtain ⟨row, hrow, rfl⟩ := hz
  exact imZeroL_getD row (h row hrow) j

theorem realAv_d1 (l : List CQ) (h : imZeroL l) : realAv (.d1 l) = .d1 l := by
  simp only [realAv]
  rw [map_real_id l h]

theorem realAv_d2 (m : Stack) (h : imZeroS m) : realAv (.d2 m) = .d2 m := by
  simp only [realAv]
  congr 1
  refine (List.map_congr_left (fun row hrow => map_real_id row (h row hrow))).trans ?_
  exact List.map_id m

theorem realAv_id_of_ok (average : String) (P : Stack) (o : AvOut)
    (hP : imZeroS P) (h : csdAverage average P = .ok o) : realAv o = o := by
  unfold csdAverage at h
  by_cases h1 : 0 < npSize P
  · rw [if_pos h1] at h
    by_cases h2 : 1 < shapeLast P
    · rw [if_pos h2] at h
      by_cases h3 : average = "median"
      · rw [if_pos h3] at h
        injection h with h
        subst h
        refine realAv_d1 _ (fun z hz => ?_)
        rw [List.mem_map] at hz
        obtain ⟨r, hr, rfl⟩ := hz
        exact csmul_im _ _ (npMedian_im r (hP r hr))
      · rw [if_neg h3] at h
        by_cases h4 : average = "mean"
        · rw [if_pos h4] at h
          injection h with h
          subst h
          refine realAv_d1 _ (fun z hz => ?_)
          rw [List.mem_map] at hz
          obtain ⟨r, hr, rfl⟩ := hz
          exact csmul_im _ _ (sum_im r (hP r hr))
        · rw [if_neg h4] at h
          exact absurd h (by simp)
    · rw [if_neg h2] at h
      injection h with h
      subst h
      refine realAv_d1 _ (fun z hz => ?_)
      rw [List.mem_map] at hz
      obtain ⟨r, hr, rfl⟩ := hz
      cases r with
      | nil => rfl
      | cons a t => exact hP _ hr a (List.mem_cons.mpr (Or.inl rfl))
  · rw [if_neg h1] at h
    injection h with h
    subst h
    exact realAv_d2 P hP

theorem spectral_helper_none_imZero (prims : NumPrims) (x : List CQ)
    (xc : Bool) (fs : ℚ) (window : WindowArg) (npsO novO nfftO : Option ℕ)
    (dtF : Stack → Stack) (ros : Bool) (scaling : String) (f : List ℚ)
    (M : Stack)
    (h : spectral_helper prims x xc none fs window npsO novO nfftO dtF ros
      scaling = .ok (f, M)) : imZeroS M := by
  unfold spectral_helper at h
  split at h
  · simp only [Except.ok.injEq, Prod.mk.injEq] at h
    rw [← h.2]
    exact fun r hr => absurd hr (List.not_mem_nil r)
  · simp only [Option.map_none] at h
    split at h
    · exact absurd h (by simp)
    · simp only [Except.ok.injEq] at h
      suffices hs : imZeroS (f, M).2 from hs
      rw [← h]
      exact imZeroS_transpose _ (imZeroS_realify _)

/-- C4: for every input and every shared parameter setting (window, segment
lengths, overlap, transform length, detrend strategy, sidedness, scaling,
averaging method, and any instantiation of the external FFT primitives),
`welch x` returns exactly the same `(freqs, spectrum)` pair as the
same-object call `csd x x`: `welch` takes the real part of `csd`'s result,
and on the same-object auto-spectral path the result is already exactly real
(the engine casts `conj(F)*F`, whose imaginary part is identically zero in
exact arithmetic, to real before returning). -/
theorem C4_welch_eq_csd (prims : NumPrims) (x : List CQ) (xc : Bool) (fs : ℚ)
    (window : WindowArg) (npsO novO nfftO : Option ℕ) (dtF : Stack → Stack)
    (ros : Bool) (scaling average : String) :
    welch prims x xc fs window npsO novO nfftO dtF ros scaling average
      = csd prims x xc none fs window npsO novO nfftO dtF ros scaling average := by
  unfold welch
  cases h : csd prims x xc none fs window npsO novO nfftO dtF ros scaling average with
  | error e => simp [h, Except.bind, Bind.bind]
  | ok fp =>
      have hreal : realAv fp.2 = fp.2 := by
        unfold csd at h
        cases hsp : spectral_helper prims x xc none fs window npsO novO nfftO
            dtF ros scaling with
        | error e =>
            rw [hsp] at h
            simp [Except.bind, Bind.bind] at h
        | ok pr =>
            rw [hsp] at h
            simp only [Bind.bind, Except.bind] at h
            cases hav : csdAverage average pr.2 with
            | error e =>
                rw [hav] at h
                simp [Except.bind, Bind.bind] at h
            | ok o =>
                rw [hav] at h
                simp only [Except.bind, Bind.bind, Except.ok.injEq] at h
                have him := spectral_helper_none_imZero prims x xc fs window
                  npsO novO nfftO dtF ros scaling pr.1 pr.2 hsp
                have hro := realAv_id_of_ok average pr.2 o him hav
                rw [← h]
                exact hro
      simp [h, Except.bind, Bind.bind, hreal]

end Welch
